import Mathlib

/-!
Verification development for the caching layer of a time-series storage node:
a stream-level cache-aside gRPC interceptor (`grpccache`), a tiered
disk-plus-fallback index cache (`storecache.BadgerIndexCache`), and a
remote-cache-service backend (`cache.RueidisCache` / `cacheutil.RueidisClient`),
shallowly embedded in Lean 4.
-/

namespace Spec

/-! ## Byte payloads and the chunked-entry number encoding -/

/-- Opaque byte payloads, modelled as lists of naturals. -/
abbrev Bytes := List Nat

/-- Models `fmt.Sprintf("%d", n)`: the decimal rendering of a count.  Digits are
kept little-endian and without the ASCII offset; the encoding is injective and
non-empty exactly as the decimal ASCII string is. -/
def encNum (n : Nat) : Bytes :=
  if n = 0 then [0] else Nat.digits 10 n

/-- Models `fmt.Sscanf(s, "%d", &numKeys)`: parsing the decimal count back.
Fails on an empty or non-decimal payload (`Sscanf` reports an error / scans no
item there). -/
def parseNum (b : Bytes) : Option Nat :=
  if b = [] then none
  else if ∀ d ∈ b, d < 10 then some (Nat.ofDigits 10 b)
  else none

/-! ## Messages (`storepb.SeriesResponse` / `storepb.SeriesRequest`)

Modelled from the spec: the response message type of the intercepted call is an
opaque protobuf message (`storepb` is repository code not present in the given
sources); only its serialized form matters to the cache, so the payload is an
opaque natural and `Marshal`/`Unmarshal` are an injective encoding with its
partial inverse. -/

structure SeriesResponse where
  payload : Nat
deriving DecidableEq, Repr

/-- Modelled from the spec: `(*storepb.SeriesResponse).Marshal` — the message's
serialized bytes. -/
def marshalResp (r : SeriesResponse) : Bytes := [r.payload]

/-- Modelled from the spec: `(*storepb.SeriesResponse).Unmarshal` — decoding
serialized bytes, which can fail on bytes that are not a serialized message. -/
def unmarshalResp : Bytes → Option SeriesResponse
  | [p] => some ⟨p⟩
  | _ => none

/-- Modelled from the spec: the request message of the intercepted call,
opaque to the cache except through its serialized form. -/
structure SeriesRequest where
  payload : Nat
deriving DecidableEq, Repr

/-- Models `hashReqTarget`: the request fingerprint, a digest computed over
(call target ‖ serialized request).  Modelled from the spec: the xxhash digest
is an external collaborator; what the interceptor relies on is that the digest
is deterministic and is a non-empty fixed-width byte string (so it never equals
the empty-string sentinel used for "no request seen yet"). -/
def hashReqTarget (r : SeriesRequest) (target : String) : String :=
  "h:" ++ target ++ ":" ++ toString r.payload

/-! ## Cache keys and the in-memory cache collaborator

The source builds textual keys `fmt.Sprintf("%s-num", sig)` and
`fmt.Sprintf("%s-%d", sig, i)`; the two formats are modelled as the two
constructors of a key type. -/

inductive CKey where
  /-- the `"<fingerprint>-num"` count key. -/
  | num (sig : String)
  /-- the `"<fingerprint>-<i>"` indexed message key. -/
  | idx (sig : String) (i : Nat)
deriving DecidableEq, Repr

/-- Modelled from the spec: the size-bounded in-process store
(`cache.InMemoryCache`, repository code not present in the given sources) seen
through the Cache Backend Contract: batched write, batched read returning only
present keys.  Modelled as an association list; a batched `Store` prepends its
batch, a read takes the first binding of a key. -/
abbrev Cache := List (CKey × Bytes)

/-- One key of a `Fetch`: the first binding of `k`, if any. -/
def fetch1 : Cache → CKey → Option Bytes
  | [], _ => none
  | (k', v) :: rest, k => if k' = k then some v else fetch1 rest k

/-- Models `c.Fetch(ctx, keys)`: the hits map, holding exactly the requested
keys that are present. -/
def fetchList (c : Cache) (ks : List CKey) : List (CKey × Bytes) :=
  ks.filterMap (fun k => (fetch1 c k).map (fun v => (k, v)))

/-- Go map access `fetchedData[key]` with the zero-value default. -/
def lookupD : List (CKey × Bytes) → CKey → Bytes → Bytes
  | [], _, d => d
  | (k', v) :: rest, k, d => if k' = k then v else lookupD rest k d

/-- Models `c.Store(ctx, keys, ttl)`: the batch becomes visible, shadowing
older bindings of the same keys (the fixed time-to-live is not modelled). -/
def storeBatch (c : Cache) (batch : List (CKey × Bytes)) : Cache :=
  batch ++ c

/-! ## `getResponses` / `putResponses` -/

/-- The Go loop `for i := 0; i < numKeys; i++` of `getResponses` that
deserializes `fetchedData[fmt.Sprintf("%s-%d", reqSig, i)]` one index at a
time, failing if any entry fails to deserialize. -/
def buildResponses (fd : List (CKey × Bytes)) (reqSig : String) :
    Nat → Nat → Option (List SeriesResponse)
  | _, 0 => some []
  | i, rem + 1 => do
    let r ← unmarshalResp (lookupD fd (CKey.idx reqSig i) [])
    let rest ← buildResponses fd reqSig (i + 1) rem
    pure (r :: rest)

/-- Embeds `getResponses`: fetch the count key, parse the count, fetch the
indexed keys, check that exactly that many came back, then deserialize each in
order.  Any failure yields `none` (the Go error return). -/
def getResponses (c : Cache) (reqSig : String) : Option (List SeriesResponse) := do
  let numBytes ← fetch1 c (CKey.num reqSig)
  let numKeys ← parseNum numBytes
  let fetchedData := fetchList c ((List.range numKeys).map (CKey.idx reqSig))
  if fetchedData.length ≠ numKeys then none
  else buildResponses fetchedData reqSig 0 numKeys

/-- The indexed part of the batch built by `putResponses`'s
`for i, resp := range responses` loop, starting at index `i`. -/
def idxBatch (reqSig : String) : Nat → List SeriesResponse → List (CKey × Bytes)
  | _, [] => []
  | i, r :: rs => (CKey.idx reqSig i, marshalResp r) :: idxBatch reqSig (i + 1) rs

/-- The whole batch `putResponses` hands to `c.Store`: the count key mapped to
the decimal rendering of the number of responses, plus one indexed key per
buffered message. -/
def putBatch (reqSig : String) (responses : List SeriesResponse) : List (CKey × Bytes) :=
  (CKey.num reqSig, encNum responses.length) :: idxBatch reqSig 0 responses

/-- Embeds `putResponses`: store the chunked entry for `reqSig`. -/
def putResponses (c : Cache) (reqSig : String) (responses : List SeriesResponse) : Cache :=
  storeBatch c (putBatch reqSig responses)

/-! ## The per-call interceptor state machine (`seriesInterceptor`) -/

/-- Transport-level errors returned by `RecvMsg` on the underlying stream:
end-of-stream (`io.EOF`) or any other error. -/
inductive GErr where
  | eof
  | other (code : Nat)
deriving DecidableEq, Repr

/-- The dynamic type of the destination `m interface{}` handed to `RecvMsg`:
either the expected `*storepb.SeriesResponse` or some other concrete type. -/
inductive Dest where
  | series
  | notSeries
deriving DecidableEq, Repr

/-- The observable outcome of one `RecvMsg` call: success (with the series
response written into the destination, when it is one), an error return, or a
fatal assertion (`panic`). -/
inductive RecvOut where
  | ok (delivered : Option SeriesResponse)
  | fail (e : GErr)
  | panicked
deriving DecidableEq, Repr

deriving instance DecidableEq for Except

/-- Per-call state: the `seriesInterceptor` fields, together with the cache it
shares and the underlying transport stream, modelled as the list of outcomes
successive `ClientStream.RecvMsg` calls would produce. -/
structure CallState where
  target : String
  hashedReq : String
  responses : List SeriesResponse
  cachedResponsesAvailable : Bool
  cachedCalls : Nat
  cache : Cache
  upstream : List (Except GErr SeriesResponse)
deriving DecidableEq, Repr

/-- The state of a freshly installed wrapper: zero-valued interceptor fields
(`hashedReq` empty, no buffer, flag unset). -/
def initState (target : String) (c : Cache) (up : List (Except GErr SeriesResponse)) :
    CallState :=
  { target := target, hashedReq := "", responses := [], cachedResponsesAvailable := false,
    cachedCalls := 0, cache := c, upstream := up }

/-- One `i.ClientStream.RecvMsg(m)` on the underlying transport: consume the
next stream event; a success writes the response into the destination when the
destination has the series type. -/
def underlyingRecv (s : CallState) (dest : Dest) : RecvOut × CallState :=
  match s.upstream with
  | [] => (.fail .eof, s)
  | .error e :: rest => (.fail e, { s with upstream := rest })
  | .ok r :: rest =>
    (.ok (if dest = .series then some r else none), { s with upstream := rest })

/-- Embeds `seriesInterceptor.RecvMsg`. -/
def recvMsg (s : CallState) (dest : Dest) : RecvOut × CallState :=
  if s.hashedReq = "" then
    underlyingRecv s dest
  else if s.cachedResponsesAvailable then
    match s.responses with
    | [] => (.fail .eof, s)
    | r :: rest =>
      match dest with
      | .notSeries => (.panicked, s)
      | .series => (.ok (some r), { s with responses := rest })
  else
    match underlyingRecv s dest with
    | (.fail e, s') =>
      if e = .eof ∧ s'.responses ≠ [] then
        (.fail e, { s' with cache := putResponses s'.cache s'.hashedReq s'.responses })
      else (.fail e, s')
    | (.ok (some r), s') => (.ok (some r), { s' with responses := s'.responses ++ [r] })
    | (.ok none, s') => (.ok none, s')
    | (.panicked, s') => (.panicked, s')

/-- The dynamic type of the outbound message handed to `SendMsg`. -/
inductive SendV where
  | seriesReq (r : SeriesRequest)
  | otherMsg
deriving DecidableEq, Repr

/-- Embeds `seriesInterceptor.SendMsg`: on a series request, fingerprint it and
attempt the cache lookup; on success buffer the cached responses, mark the call
as replaying and bump the fully-cached-calls counter.  The message is forwarded
to the underlying transport in every case (the forwarding itself has no effect
on the modelled inbound stream). -/
def sendMsg (s : CallState) (m : SendV) : CallState :=
  match m with
  | .otherMsg => s
  | .seriesReq r =>
    let fp := hashReqTarget r s.target
    match getResponses s.cache fp with
    | some responses =>
      { s with hashedReq := fp, responses := responses,
               cachedResponsesAvailable := true, cachedCalls := s.cachedCalls + 1 }
    | none => { s with hashedReq := fp }

/-- `k` successive `RecvMsg` calls with a series-typed destination. -/
def recvRun (s : CallState) : Nat → List RecvOut × CallState
  | 0 => ([], s)
  | k + 1 =>
    let (o, s') := recvMsg s .series
    let (os, s'') := recvRun s' k
    (o :: os, s'')

/-- Successive `RecvMsg` calls with the given destination types. -/
def recvRunD (s : CallState) : List Dest → List RecvOut × CallState
  | [] => ([], s)
  | d :: ds =>
    let (o, s') := recvMsg s d
    let (os, s'') := recvRunD s' ds
    (o :: os, s'')

/-- The same successive reads performed directly on an unwrapped transport
stream: what the caller would observe with no interceptor installed. -/
def plainRun (up : List (Except GErr SeriesResponse)) :
    List Dest → List RecvOut × List (Except GErr SeriesResponse)
  | [] => ([], up)
  | d :: ds =>
    match up with
    | [] =>
      let (os, up') := plainRun [] ds
      (RecvOut.fail .eof :: os, up')
    | .error e :: rest =>
      let (os, up') := plainRun rest ds
      (RecvOut.fail e :: os, up')
    | .ok r :: rest =>
      let (os, up') := plainRun rest ds
      (RecvOut.ok (if d = .series then some r else none) :: os, up')

/-! ## Interceptor construction (`NewSeriesRequestcachingInterceptor`,
`GetInterceptor`, `splitMethodName`) -/

/-- Modelled from the spec: the size-bounded in-process store collaborator
(`cache.NewInMemoryCacheWithConfig`, repository code not present in the given
sources) — the constructor records the configured sizes over an initially
empty store. -/
structure InMemoryCacheObj where
  maxSize : Nat
  maxItemSize : Nat
  entries : Cache
deriving DecidableEq, Repr

/-- Modelled from the spec: constructing the in-process store with the given
size configuration. -/
def newInMemoryCacheWithConfig (maxSize maxItemSize : Nat) : InMemoryCacheObj :=
  { maxSize := maxSize, maxItemSize := maxItemSize, entries := [] }

/-- The `SeriesRequestCachingInterceptor` record.  The cache field is an
`Option` mirroring the Go pointer field, so that "a backend was constructed"
is observable as `isSome`. -/
structure SRCInterceptor where
  inmemoryCache : Option InMemoryCacheObj
  passthrough : Bool
  cachedCalls : Nat
deriving DecidableEq, Repr

/-- Embeds `NewSeriesRequestcachingInterceptor`: zero total size forces the
item size to zero, an in-memory cache is constructed unconditionally, and the
pass-through flag is set exactly when the total size is zero. -/
def NewSeriesRequestcachingInterceptor (maxSize maxItemSize : Nat) : SRCInterceptor :=
  let maxItemSize' := if maxSize = 0 then 0 else maxItemSize
  { inmemoryCache := some (newInMemoryCacheWithConfig maxSize maxItemSize'),
    passthrough := maxSize = 0,
    cachedCalls := 0 }

/-- Embeds `splitMethodName`: strip one leading slash, then split at the first
remaining slash; without one, both components are `"unknown"`. -/
def splitMethodName (fullMethod : String) : String × String :=
  let fm := if fullMethod.startsWith "/" then fullMethod.drop 1 else fullMethod
  match fm.toList.findIdx? (· = '/') with
  | some i => ((fm.toList.take i).asString, (fm.toList.drop (i + 1)).asString)
  | none => ("unknown", "unknown")

/-- What the stream interceptor returned by `GetInterceptor` hands back for one
call: the underlying client stream unmodified, or that stream wrapped in a
fresh `seriesInterceptor`. -/
inductive WrapResult where
  /-- the underlying stream, returned unmodified. -/
  | plain
  /-- the stream wrapped in a `seriesInterceptor` for the given target. -/
  | wrapped (target : String)
deriving DecidableEq, Repr

/-- Embeds the closure returned by
`SeriesRequestCachingInterceptor.GetInterceptor`: in pass-through mode every
call gets the underlying stream back unmodified; otherwise only the
`/thanos.Store/Series` method is wrapped. -/
def getInterceptor (i : SRCInterceptor) (method : String) (target : String) : WrapResult :=
  if i.passthrough then .plain
  else
    match splitMethodName method with
    | (svc, actualMethod) =>
      if svc = "thanos.Store" ∧ actualMethod = "Series" then .wrapped target
      else .plain

/-! ## Tiered disk-fallback backend (`storecache.BadgerIndexCache`) -/

/-- A postings label (`prometheus` `labels.Label`). -/
structure Label where
  name : String
  value : String
deriving DecidableEq, Repr

/-- The routing predicate's label: `app=core`. -/
def coreLabel : Label := ⟨"app", "core"⟩

/-- The outcome of one badger point read (`txn.Get` followed by `ValueCopy`):
the value, the dedicated key-not-found error, or any other read error
(`ioErr` also covers a failing `ValueCopy`). -/
inductive BadgerGet where
  | found (v : Bytes)
  | notFound
  | ioErr (code : Nat)
deriving DecidableEq, Repr

/-- The disk-backed store, modelled as the outcome of a point read for each
(block, label) key. -/
def BadgerDB := Nat → Label → BadgerGet

/-- The wrapped fallback index cache's `FetchMultiPostings`, as a function of
block and requested labels to (hits, misses). -/
def FallbackFetch := Nat → List Label → List (Label × Bytes) × List Label

/-- The Backend Result contract the fallback cache is assumed to satisfy: for
a duplicate-free request, hit keys and misses together recover the requested
labels exactly once each. -/
def FallbackContract (ic : FallbackFetch) : Prop :=
  ∀ bid ls, ls.Nodup → (((ic bid ls).1.map Prod.fst) ++ (ic bid ls).2).Perm ls

/-- Discriminator for disk read outcomes that are errors other than
key-not-found. -/
def isIoErr : BadgerGet → Bool
  | .ioErr _ => true
  | _ => false

/-- The Go loop of `FetchMultiPostings` that removes the first occurrence of
the `app=core` label by overwriting it with the last element and truncating:
`none` when no label matches. -/
def swapRemoveCore (lbls : List Label) : Option (List Label) :=
  match lbls.findIdx? (· = coreLabel) with
  | none => none
  | some i => some ((lbls.set i (lbls.getLastD coreLabel)).dropLast)

/-- Go map update `hits[k] = v` on an association list. -/
def upsert (l : List (Label × Bytes)) (k : Label) (v : Bytes) : List (Label × Bytes) :=
  if l.any (fun kv => kv.1 = k) then
    l.map (fun kv => if kv.1 = k then (k, v) else kv)
  else l ++ [(k, v)]

/-- The `for k, v := range extraHits { hits[k] = v }` merge loop. -/
def mergeHits (hits extra : List (Label × Bytes)) : List (Label × Bytes) :=
  extra.foldl (fun acc kv => upsert acc kv.1 kv.2) hits

/-- Embeds `BadgerIndexCache.FetchMultiPostings`: extract the first `app=core`
label if present, look it up in the disk store (a hit fills `extraHits`, a
key-not-found fills `extraMisses`, any other read error fills neither), fetch
the remaining labels through the fallback cache, then merge. -/
def fetchMultiPostings (db : BadgerDB) (ic : FallbackFetch) (blockID : Nat)
    (lbls : List Label) : List (Label × Bytes) × List Label :=
  let (lbls', foundCore) :=
    match swapRemoveCore lbls with
    | some rest => (rest, true)
    | none => (lbls, false)
  let (extraHits, extraMisses) :=
    if foundCore then
      match db blockID coreLabel with
      | .found v => ([(coreLabel, v)], ([] : List Label))
      | .notFound => ([], [coreLabel])
      | .ioErr _ => ([], [])
    else ([], [])
  let (hits, misses) := ic blockID lbls'
  (mergeHits hits extraHits, misses ++ extraMisses)

/-- A concrete fallback cache that holds nothing: every requested label is a
miss.  It satisfies the backend-result contract. -/
def icAllMiss : FallbackFetch := fun _ ls => ([], ls)

/-- A concrete disk store whose read of the routed key fails with an error
other than key-not-found. -/
def dbIoErrCore : BadgerDB := fun _ l => if l = coreLabel then .ioErr 7 else .notFound

/-- A concrete disk store holding a value for the routed key. -/
def dbWithCore : BadgerDB := fun _ l => if l = coreLabel then .found [42] else .notFound

/-! ## Remote cache-service backend (`cacheutil.RueidisClient`,
`cache.RueidisCache`) -/

/-- Modelled from the spec: the remote key-value cache service as seen through
one `MGET` — each key independently resolves to a value or to nothing (the
client-side read cache only changes which value is observed, not the shape of
the reply). -/
def RedisServer := String → Option Bytes

/-- Go map update on the string-keyed results map. -/
def upsertS (l : List (String × Bytes)) (k : String) (v : Bytes) : List (String × Bytes) :=
  if l.any (fun kv => kv.1 = k) then
    l.map (fun kv => if kv.1 = k then (k, v) else kv)
  else l ++ [(k, v)]

/-- The body of `GetMulti`'s reply loop: a per-key reply that is a value is
written into the results map under its requested key, any other reply is
skipped. -/
def collectStep (acc : List (String × Bytes)) (kr : String × Option Bytes) :
    List (String × Bytes) :=
  match kr.2 with
  | some v => upsertS acc kr.1 v
  | none => acc

/-- Embeds `RueidisClient.GetMulti`: an empty request returns the empty map at
once; otherwise one batched `MGET` is issued (when it errors, the reply array
is empty) and every per-key reply that is a value is written into the results
map under its requested key. -/
def getMulti (server : RedisServer) (erred : Bool) (keys : List String) :
    List (String × Bytes) :=
  if keys = [] then []
  else
    let resps := if erred then [] else keys.map server
    (keys.zip resps).foldl collectStep []

/-- The two counters of `RueidisCache`. -/
structure RueidisCounters where
  requests : Nat
  hits : Nat
deriving DecidableEq, Repr

/-- Embeds `RueidisCache.Fetch`: bump the requested-keys counter by the number
of requested keys, issue the multi-get, bump the hit-keys counter by the
number of entries of the returned map, and return that map. -/
def rueidisFetch (server : RedisServer) (erred : Bool) (cnt : RueidisCounters)
    (keys : List String) : List (String × Bytes) × RueidisCounters :=
  let cnt' := { cnt with requests := cnt.requests + keys.length }
  let results := getMulti server erred keys
  (results, { cnt' with hits := cnt'.hits + results.length })

/-! ## Concrete fixtures used to exercise the theorems on closed inputs -/

/-- A concrete fingerprint: the hash of request `0` sent to target `"t"`. -/
def wF : String := hashReqTarget ⟨0⟩ "t"

/-- A cache holding a count key declaring two messages but only one indexed
key: a partial chunked entry. -/
def wCachePartial : Cache := [(CKey.num wF, [2]), (CKey.idx wF 0, [5])]

/-- A call in the recording state with one buffered message, whose transport
is about to signal end-of-stream. -/
def wRecState : CallState :=
  { target := "t", hashedReq := "F", responses := [⟨5⟩],
    cachedResponsesAvailable := false, cachedCalls := 3, cache := [],
    upstream := [Except.error GErr.eof] }

/-- A call in the replaying state with one buffered message left. -/
def wRepState : CallState :=
  { target := "t", hashedReq := "F", responses := [⟨5⟩],
    cachedResponsesAvailable := true, cachedCalls := 1, cache := [],
    upstream := [] }

/-- A call on which no series request was ever sent: the fingerprint is still
empty. -/
def wPlainState : CallState :=
  { target := "t", hashedReq := "", responses := [],
    cachedResponsesAvailable := false, cachedCalls := 0, cache := [],
    upstream := [Except.ok ⟨4⟩, Except.error (GErr.other 2)] }

/-- The value each indexed key of a freshly stored entry carries (a technical
companion of `putBatch` used to state the round-trip lemmas). -/
def storedVal (rs : List SeriesResponse) : CKey → Bytes
  | .num _ => []
  | .idx _ i => marshalResp (rs.getD i ⟨0⟩)

/-! ## Helper lemmas: the chunked-entry round trip -/

theorem parseNum_encNum (n : Nat) : parseNum (encNum n) = some n := by
  by_cases h : n = 0
  · subst h; simp [encNum, parseNum, Nat.ofDigits]
  · have hne : Nat.digits 10 n ≠ [] := Nat.digits_ne_nil_iff_ne_zero.mpr h
    have hlt : ∀ d ∈ Nat.digits 10 n, d < 10 := fun d hd =>
      Nat.digits_lt_base (by norm_num) hd
    simp only [encNum, parseNum, if_neg h, if_neg hne, if_pos hlt,
      Nat.ofDigits_digits]

theorem unmarshal_marshal (r : SeriesResponse) :
    unmarshalResp (marshalResp r) = some r := rfl

theorem fetch1_idxBatch (F : String) (rs : List SeriesResponse) :
    ∀ (s j : Nat) (c : Cache), j < rs.length →
      fetch1 (idxBatch F s rs ++ c) (CKey.idx F (s + j))
        = some (marshalResp (rs.getD j ⟨0⟩)) := by
  induction rs with
  | nil => intro s j c hj; simp at hj
  | cons r rs ih =>
    intro s j c hj
    cases j with
    | zero => simp [idxBatch, fetch1]
    | succ j' =>
      have hne : CKey.idx F s ≠ CKey.idx F (s + (j' + 1)) := by
        intro h; injection h with _ h2; omega
      have := ih (s + 1) j' c (by simpa using hj)
      simp only [idxBatch, List.cons_append, fetch1, if_neg hne]
      have harith : s + 1 + j' = s + (j' + 1) := by omega
      rw [harith] at this
      simpa using this

theorem fetch1_putBatch_num (F : String) (rs : List SeriesResponse) (c : Cache) :
    fetch1 (putBatch F rs ++ c) (CKey.num F) = some (encNum rs.length) := by
  simp [putBatch, fetch1]

theorem fetch1_putBatch_idx (F : String) (rs : List SeriesResponse) (c : Cache)
    (j : Nat) (hj : j < rs.length) :
    fetch1 (putBatch F rs ++ c) (CKey.idx F j) = some (marshalResp (rs.getD j ⟨0⟩)) := by
  have := fetch1_idxBatch F rs 0 j c hj
  simpa [putBatch, fetch1] using this

theorem filterMap_eq_map_of_some {α β : Type} (f : α → Option β) (g : α → β) :
    ∀ l : List α, (∀ a ∈ l, f a = some (g a)) → l.filterMap f = l.map g := by
  intro l
  induction l with
  | nil => intro _; rfl
  | cons a l ih =>
    intro h
    have ha := h a (by simp)
    simp [List.filterMap_cons, ha, ih fun b hb => h b (by simp [hb])]

theorem lookupD_fetchList (c : Cache) (k : CKey) (v d : Bytes) :
    ∀ ks : List CKey, k ∈ ks → fetch1 c k = some v →
      lookupD (fetchList c ks) k d = v := by
  intro ks
  induction ks with
  | nil => intro h; simp at h
  | cons k1 ks ih =>
    intro hk hv
    by_cases he : k1 = k
    · subst he
      simp [fetchList, List.filterMap_cons, hv, lookupD]
    · have hk' : k ∈ ks := by
        rcases List.mem_cons.mp hk with h | h
        · exact absurd h.symm he
        · exact h
      cases hf : fetch1 c k1 with
      | none => simpa [fetchList, List.filterMap_cons, hf] using ih hk' hv
      | some v1 =>
        have := ih hk' hv
        simpa [fetchList, List.filterMap_cons, hf, lookupD, he] using this

theorem buildResponses_complete (fd : List (CKey × Bytes)) (F : String) :
    ∀ (rs : List SeriesResponse) (s : Nat),
      (∀ j, j < rs.length →
        unmarshalResp (lookupD fd (CKey.idx F (s + j)) []) = some (rs.getD j ⟨0⟩)) →
      buildResponses fd F s rs.length = some rs := by
  intro rs
  induction rs with
  | nil => intro s _; rfl
  | cons r rs ih =>
    intro s h
    have h0 : unmarshalResp (lookupD fd (CKey.idx F s) []) = some r := by
      simpa using h 0 (by simp)
    have hrest : buildResponses fd F (s + 1) rs.length = some rs := by
      apply ih
      intro j hj
      have := h (j + 1) (by simpa using hj)
      simpa [Nat.add_assoc, Nat.add_comm 1 j] using this
    simp only [List.length_cons, buildResponses, h0, hrest, Option.some_bind,
      Option.bind_eq_bind]
    rfl

theorem getResponses_putResponses (c : Cache) (F : String)
    (rs : List SeriesResponse) :
    getResponses (putResponses c F rs) F = some rs := by
  have hnum : fetch1 (putResponses c F rs) (CKey.num F) = some (encNum rs.length) :=
    fetch1_putBatch_num F rs c
  have hidx : ∀ j, j < rs.length →
      fetch1 (putResponses c F rs) (CKey.idx F j) = some (marshalResp (rs.getD j ⟨0⟩)) :=
    fun j hj => fetch1_putBatch_idx F rs c j hj
  have hkeys : ∀ k ∈ (List.range rs.length).map (CKey.idx F),
      fetch1 (putResponses c F rs) k = some (storedVal rs k) := by
    intro k hk
    rcases List.mem_map.mp hk with ⟨j, hj, rfl⟩
    exact hidx j (List.mem_range.mp hj)
  have hfd : fetchList (putResponses c F rs) ((List.range rs.length).map (CKey.idx F))
      = ((List.range rs.length).map (CKey.idx F)).map (fun k => (k, storedVal rs k)) := by
    apply filterMap_eq_map_of_some
    intro k hk
    simp [hkeys k hk]
  have hlen : (fetchList (putResponses c F rs)
      ((List.range rs.length).map (CKey.idx F))).length = rs.length := by
    rw [hfd]; simp
  have hbuild : buildResponses
      (fetchList (putResponses c F rs) ((List.range rs.length).map (CKey.idx F)))
      F 0 rs.length = some rs := by
    apply buildResponses_complete
    intro j hj
    have hmem : CKey.idx F j ∈ (List.range rs.length).map (CKey.idx F) :=
      List.mem_map.mpr ⟨j, List.mem_range.mpr hj, rfl⟩
    rw [Nat.zero_add,
      lookupD_fetchList (putResponses c F rs) (CKey.idx F j)
        (marshalResp (rs.getD j ⟨0⟩)) [] _ hmem (hidx j hj)]
    exact unmarshal_marshal _
  simp only [getResponses, hnum, Option.bind_eq_bind, Option.some_bind,
    parseNum_encNum, hlen]
  simpa using hbuild

theorem hashReqTarget_ne_empty (r : SeriesRequest) (t : String) :
    hashReqTarget r t ≠ "" := by
  intro h
  have h1 := congrArg String.length h
  simp [hashReqTarget, String.length_append] at h1
  exact absurd h1.1.1.1 (by decide)

theorem recvRun_replay (msgs : List SeriesResponse) :
    ∀ s : CallState, s.hashedReq ≠ "" → s.cachedResponsesAvailable = true →
      s.responses = msgs →
      recvRun s (msgs.length + 1)
        = (msgs.map (fun m => RecvOut.ok (some m)) ++ [RecvOut.fail GErr.eof],
           { s with responses := [] }) := by
  induction msgs with
  | nil =>
    intro s h1 h2 h3
    simp only [List.length_nil, recvRun, recvMsg, if_neg h1, h2, if_pos rfl, h3]
    cases s
    simp_all
  | cons m ms ih =>
    intro s h1 h2 h3
    have hstep : recvMsg s .series = (.ok (some m), { s with responses := ms }) := by
      simp [recvMsg, if_neg h1, h2, h3]
    have ihs := ih { s with responses := ms } (by simpa using h1) (by simpa using h2) rfl
    have expand : recvRun s ((m :: ms).length + 1)
        = ((recvMsg s .series).1 :: (recvRun (recvMsg s .series).2 (ms.length + 1)).1,
           (recvRun (recvMsg s .series).2 (ms.length + 1)).2) := rfl
    rw [expand]
    simp [hstep, ihs]

theorem buildResponses_none (fd : List (CKey × Bytes)) (F : String) :
    ∀ (n s j : Nat), j < n →
      unmarshalResp (lookupD fd (CKey.idx F (s + j)) []) = none →
      buildResponses fd F s n = none := by
  intro n
  induction n with
  | zero => intro s j hj _; simp at hj
  | succ n ih =>
    intro s j hj hfail
    cases j with
    | zero =>
      simp only [Nat.add_zero] at hfail
      simp [buildResponses, hfail]
    | succ j' =>
      cases hu : unmarshalResp (lookupD fd (CKey.idx F s) []) with
      | none => simp [buildResponses, hu]
      | some r =>
        have : buildResponses fd F (s + 1) n = none := by
          apply ih (s + 1) j' (by omega)
          have harith : s + 1 + j' = s + (j' + 1) := by omega
          rw [harith]
          exact hfail
        simp [buildResponses, hu, this]

theorem recvMsg_record_fst (s : CallState) (dest : Dest)
    (h1 : s.hashedReq ≠ "") (h2 : s.cachedResponsesAvailable = false) :
    (recvMsg s dest).1 = (underlyingRecv s dest).1 := by
  have h2' : ¬(s.cachedResponsesAvailable = true) := by simp [h2]
  simp only [recvMsg, if_neg h1, if_neg h2']
  rcases hu : underlyingRecv s dest with ⟨res, s'⟩
  cases res with
  | fail e => by_cases hc : e = GErr.eof ∧ s'.responses ≠ [] <;> simp [hc]
  | ok d => cases d <;> rfl
  | panicked => rfl

theorem idxBatch_keys (F : String) :
    ∀ (rs : List SeriesResponse) (s : Nat),
      (idxBatch F s rs).map Prod.fst
        = (List.range rs.length).map (fun j => CKey.idx F (s + j)) := by
  intro rs
  induction rs with
  | nil => intro s; rfl
  | cons r rs ih =>
    intro s
    simp only [idxBatch, List.map_cons, List.length_cons, List.range_succ_eq_map,
      List.map_map, ih (s + 1)]
    refine congrArg (CKey.idx F (s + 0) :: ·) ?_
    apply List.map_congr_left
    intro j _
    simp only [Function.comp_apply]
    refine congrArg (CKey.idx F) ?_
    omega

theorem recvRunD_passthrough (ds : List Dest) :
    ∀ s : CallState, s.hashedReq = "" →
      recvRunD s ds
        = ((plainRun s.upstream ds).1,
           { s with upstream := (plainRun s.upstream ds).2 }) := by
  induction ds with
  | nil => intro s _; simp [recvRunD, plainRun]
  | cons d ds ih =>
    intro s h
    cases hu : s.upstream with
    | nil =>
      have ih' := ih s h
      rw [hu] at ih'
      simp [recvRunD, recvMsg, h, underlyingRecv, hu, plainRun, ih']
    | cons ev rest =>
      cases ev with
      | error e =>
        have ih' := ih { s with upstream := rest } h
        simp only [recvRunD, recvMsg, if_pos h, underlyingRecv, hu, ih']
        simp [plainRun, hu]
      | ok r =>
        have ih' := ih { s with upstream := rest } h
        simp only [recvRunD, recvMsg, if_pos h, underlyingRecv, hu, ih']
        simp [plainRun, hu]

/-! ## Helper lemmas: the swap-remove loop of the tiered backend -/

theorem getLastD_irrel {α : Type} (l : List α) (hne : l ≠ []) (a b : α) :
    l.getLastD a = l.getLastD b := by
  rw [List.getLastD_eq_getLast?, List.getLastD_eq_getLast?,
    List.getLast?_eq_getLast l hne]
  rfl

theorem getLastD_cons_dropLast_perm {α : Type} (l : List α) (d : α) (h : l ≠ []) :
    (l.getLastD d :: l.dropLast).Perm l := by
  rw [List.getLastD_eq_getLast?, List.getLast?_eq_getLast l h]
  conv_rhs => rw [← List.dropLast_append_getLast h]
  exact (List.perm_append_singleton _ _).symm

theorem findIdx_set_dropLast_perm :
    ∀ (l : List Label) (i : Nat), l.findIdx? (· = coreLabel) = some i →
      (coreLabel :: ((l.set i (l.getLastD coreLabel)).dropLast)).Perm l := by
  intro l
  induction l with
  | nil => intro i h; simp [List.findIdx?_nil] at h
  | cons x xs ih =>
    intro i h
    rw [List.findIdx?_cons] at h
    by_cases hx : x = coreLabel
    · rw [if_pos (by simp [hx])] at h
      have hi : i = 0 := (Option.some.inj h).symm
      subst hi
      rw [List.set_cons_zero]
      by_cases hxs : xs = []
      · subst hxs
        subst hx
        simp [List.getLastD]
      · have hy : (x :: xs).getLastD coreLabel = xs.getLastD coreLabel := by
          rw [List.getLastD_cons]
          exact getLastD_irrel xs hxs x coreLabel
        rw [hy, List.dropLast_cons_of_ne_nil hxs]
        subst hx
        exact List.Perm.cons coreLabel (getLastD_cons_dropLast_perm xs coreLabel hxs)
    · rw [if_neg (by simp [hx]), List.findIdx?_succ] at h
      cases hfx : xs.findIdx? (· = coreLabel) with
      | none => rw [hfx] at h; simp at h
      | some j =>
        rw [hfx] at h
        simp only [Option.map_some'] at h
        have hi : i = j + 1 := (Option.some.inj h).symm
        subst hi
        have hxs : xs ≠ [] := by
          intro hh
          rw [hh, List.findIdx?_nil] at hfx
          exact Option.noConfusion hfx
        have hy : (x :: xs).getLastD coreLabel = xs.getLastD coreLabel := by
          rw [List.getLastD_cons]
          exact getLastD_irrel xs hxs x coreLabel
        rw [hy, List.set_cons_succ]
        have hset : xs.set j (xs.getLastD coreLabel) ≠ [] := by
          intro hh
          have hlen := congrArg List.length hh
          rw [List.length_set] at hlen
          exact hxs (List.length_eq_zero.mp hlen)
        rw [List.dropLast_cons_of_ne_nil hset]
        exact ((List.Perm.swap x coreLabel _).trans
          (List.Perm.cons x (ih j hfx)))

theorem swapRemoveCore_perm (l : List Label) (rest : List Label)
    (h : swapRemoveCore l = some rest) : (coreLabel :: rest).Perm l := by
  unfold swapRemoveCore at h
  cases hf : l.findIdx? (· = coreLabel) with
  | none => rw [hf] at h; exact Option.noConfusion h
  | some i =>
    rw [hf] at h
    have := findIdx_set_dropLast_perm l i hf
    rwa [Option.some.inj h] at this

theorem swapRemoveCore_none (l : List Label) (h : swapRemoveCore l = none) :
    coreLabel ∉ l := by
  unfold swapRemoveCore at h
  cases hf : l.findIdx? (· = coreLabel) with
  | none =>
    intro hmem
    have := List.findIdx?_eq_none_iff.mp hf coreLabel hmem
    simp at this
  | some i => rw [hf] at h; exact Option.noConfusion h

/-! ## Claim theorems -/

/-- C1: round-trip of the stream cache — after `putResponses` records messages
M₁…Mₙ under fingerprint F, a fresh call whose request hashes to the same F
finds the entry on `SendMsg`, and its successive `RecvMsg` calls replay exactly
M₁…Mₙ in order followed by end-of-stream, without consuming any event of the
underlying transport stream. -/
theorem c1_round_trip (c : Cache) (tgt : String) (r : SeriesRequest)
    (msgs : List SeriesResponse) (up : List (Except GErr SeriesResponse)) :
    (recvRun (sendMsg (initState tgt (putResponses c (hashReqTarget r tgt) msgs) up)
        (SendV.seriesReq r)) (msgs.length + 1)).1
      = msgs.map (fun m => RecvOut.ok (some m)) ++ [RecvOut.fail GErr.eof]
    ∧ (recvRun (sendMsg (initState tgt (putResponses c (hashReqTarget r tgt) msgs) up)
        (SendV.seriesReq r)) (msgs.length + 1)).2.upstream = up := by
  have hsend : sendMsg (initState tgt (putResponses c (hashReqTarget r tgt) msgs) up)
      (SendV.seriesReq r)
      = { target := tgt, hashedReq := hashReqTarget r tgt, responses := msgs,
          cachedResponsesAvailable := true, cachedCalls := 1,
          cache := putResponses c (hashReqTarget r tgt) msgs, upstream := up } := by
    simp [sendMsg, initState, getResponses_putResponses]
  rw [hsend, recvRun_replay msgs _ (by exact hashReqTarget_ne_empty r tgt) rfl rfl]
  exact ⟨rfl, rfl⟩

/-- C5: partial-entry immunity — when the count key is fetched successfully
but the count is malformed, or fewer indexed keys than declared come back, or
some entry fails to deserialize, the lookup fails, `SendMsg` leaves the call on
the default recording path (no replay flag, empty buffer, counter untouched),
and the next `RecvMsg` observably passes through to the underlying transport;
no error reaches the caller. -/
theorem c5_partial_entry_immunity (c : Cache) (tgt : String) (r : SeriesRequest)
    (up : List (Except GErr SeriesResponse)) (nb : Bytes) (dest : Dest)
    (hnum : fetch1 c (CKey.num (hashReqTarget r tgt)) = some nb)
    (hbad : parseNum nb = none ∨
      ∃ n, parseNum nb = some n ∧
        ((fetchList c ((List.range n).map (CKey.idx (hashReqTarget r tgt)))).length < n
          ∨ ∃ j, j < n ∧
              unmarshalResp (lookupD
                (fetchList c ((List.range n).map (CKey.idx (hashReqTarget r tgt))))
                (CKey.idx (hashReqTarget r tgt) j) []) = none)) :
    getResponses c (hashReqTarget r tgt) = none
    ∧ sendMsg (initState tgt c up) (SendV.seriesReq r)
        = { initState tgt c up with hashedReq := hashReqTarget r tgt }
    ∧ (recvMsg (sendMsg (initState tgt c up) (SendV.seriesReq r)) dest).1
        = (underlyingRecv (sendMsg (initState tgt c up) (SendV.seriesReq r)) dest).1 := by
  have hget : getResponses c (hashReqTarget r tgt) = none := by
    rcases hbad with hp | ⟨n, hp, hf⟩
    · simp [getResponses, hnum, hp]
    · rcases hf with hlen | ⟨j, hj, hu⟩
      · simp only [getResponses, hnum, Option.some_bind, hp, Option.bind_eq_bind]
        rw [if_pos (Nat.ne_of_lt hlen)]
      · simp only [getResponses, hnum, Option.some_bind, hp, Option.bind_eq_bind]
        by_cases hl : (fetchList c
            ((List.range n).map (CKey.idx (hashReqTarget r tgt)))).length ≠ n
        · rw [if_pos hl]
        · rw [if_neg hl]
          apply buildResponses_none _ _ n 0 j hj
          simpa using hu
  have hsend : sendMsg (initState tgt c up) (SendV.seriesReq r)
      = { initState tgt c up with hashedReq := hashReqTarget r tgt } := by
    simp [sendMsg, initState, hget]
  refine ⟨hget, hsend, ?_⟩
  rw [hsend]
  exact recvMsg_record_fst _ dest (by exact hashReqTarget_ne_empty r tgt) rfl

/-- Closed witness for C5: a cache whose count key declares two messages but
holds only one indexed key. -/
theorem c5_partial_entry_immunity_witness :
    (fetch1 wCachePartial (CKey.num (hashReqTarget ⟨0⟩ "t")) = some [2]
      ∧ (parseNum [2] = none ∨
          ∃ n, parseNum [2] = some n ∧
            ((fetchList wCachePartial
                ((List.range n).map (CKey.idx (hashReqTarget ⟨0⟩ "t")))).length < n
              ∨ ∃ j, j < n ∧
                  unmarshalResp (lookupD
                    (fetchList wCachePartial
                      ((List.range n).map (CKey.idx (hashReqTarget ⟨0⟩ "t"))))
                    (CKey.idx (hashReqTarget ⟨0⟩ "t") j) []) = none)))
    ∧ (getResponses wCachePartial (hashReqTarget ⟨0⟩ "t") = none
      ∧ sendMsg (initState "t" wCachePartial []) (SendV.seriesReq ⟨0⟩)
          = { initState "t" wCachePartial [] with hashedReq := hashReqTarget ⟨0⟩ "t" }
      ∧ (recvMsg (sendMsg (initState "t" wCachePartial []) (SendV.seriesReq ⟨0⟩))
            Dest.series).1
          = (underlyingRecv (sendMsg (initState "t" wCachePartial [])
              (SendV.seriesReq ⟨0⟩)) Dest.series).1) :=
  ⟨⟨by decide, Or.inr ⟨2, by decide, Or.inl (by decide)⟩⟩,
    c5_partial_entry_immunity wCachePartial "t" ⟨0⟩ [] [2] Dest.series (by decide)
      (Or.inr ⟨2, by decide, Or.inl (by decide)⟩)⟩

/-- C6: while recording, the chunked entry is persisted if and only if the
underlying read yields end-of-stream with a non-empty buffer (an exhausted
modelled stream also reads as end-of-stream); any transport error is
propagated verbatim and, unless it is that clean end-of-stream, the cache is
left untouched — no partial sequence is ever written. -/
theorem c6_persist_iff_clean_eof (s : CallState) (dest : Dest)
    (h1 : s.hashedReq ≠ "") (h2 : s.cachedResponsesAvailable = false) :
    ((recvMsg s dest).2.cache
      = if (s.upstream.head? = some (Except.error GErr.eof) ∨ s.upstream = [])
            ∧ s.responses ≠ []
        then putResponses s.cache s.hashedReq s.responses
        else s.cache)
    ∧ ∀ e rest, s.upstream = Except.error e :: rest →
        recvMsg s dest
          = (RecvOut.fail e,
             if e = GErr.eof ∧ s.responses ≠ []
             then { s with upstream := rest,
                           cache := putResponses s.cache s.hashedReq s.responses }
             else { s with upstream := rest }) := by
  have h2' : ¬(s.cachedResponsesAvailable = true) := by simp [h2]
  constructor
  · cases hu : s.upstream with
    | nil =>
      by_cases hr : s.responses = [] <;>
        simp [recvMsg, if_neg h1, if_neg h2', underlyingRecv, hu, hr]
    | cons ev rest =>
      cases ev with
      | error e =>
        by_cases he : e = GErr.eof <;> by_cases hr : s.responses = [] <;>
          simp [recvMsg, if_neg h1, if_neg h2', underlyingRecv, hu, he, hr]
      | ok r =>
        cases dest <;>
          simp [recvMsg, if_neg h1, if_neg h2', underlyingRecv, hu]
  · intro e rest hup
    by_cases he : e = GErr.eof <;> by_cases hr : s.responses = [] <;>
      simp [recvMsg, if_neg h1, if_neg h2', underlyingRecv, hup, he, hr]

/-- Closed witness for C6: a recording call with one buffered message whose
transport signals end-of-stream. -/
theorem c6_persist_iff_clean_eof_witness :
    (wRecState.hashedReq ≠ "" ∧ wRecState.cachedResponsesAvailable = false)
    ∧ (((recvMsg wRecState Dest.series).2.cache
        = if (wRecState.upstream.head? = some (Except.error GErr.eof)
                ∨ wRecState.upstream = []) ∧ wRecState.responses ≠ []
          then putResponses wRecState.cache wRecState.hashedReq wRecState.responses
          else wRecState.cache)
      ∧ ∀ e rest, wRecState.upstream = Except.error e :: rest →
          recvMsg wRecState Dest.series
            = (RecvOut.fail e,
               if e = GErr.eof ∧ wRecState.responses ≠ []
               then { wRecState with
                      upstream := rest,
                      cache := putResponses wRecState.cache wRecState.hashedReq wRecState.responses }
               else { wRecState with upstream := rest })) :=
  ⟨⟨by decide, by decide⟩,
    c6_persist_iff_clean_eof wRecState Dest.series (by decide) (by decide)⟩

/-- C7: on a clean end-of-stream of a recording call, the batch written for
the fingerprint holds exactly the count key (bound to the decimal rendering of
the number of buffered messages) and one indexed key per message in arrival
order, each bound to that message's serialized bytes; the fully-cached-calls
counter is not incremented by the recording call. -/
theorem c7_chunked_entry_encoding (s : CallState) (dest : Dest)
    (rest : List (Except GErr SeriesResponse))
    (h1 : s.hashedReq ≠ "") (h2 : s.cachedResponsesAvailable = false)
    (hup : s.upstream = Except.error GErr.eof :: rest) (hne : s.responses ≠ []) :
    (recvMsg s dest).2.cache = putBatch s.hashedReq s.responses ++ s.cache
    ∧ (putBatch s.hashedReq s.responses).map Prod.fst
        = CKey.num s.hashedReq
            :: (List.range s.responses.length).map (CKey.idx s.hashedReq)
    ∧ fetch1 (recvMsg s dest).2.cache (CKey.num s.hashedReq)
        = some (encNum s.responses.length)
    ∧ (∀ j, j < s.responses.length →
        fetch1 (recvMsg s dest).2.cache (CKey.idx s.hashedReq j)
          = some (marshalResp (s.responses.getD j ⟨0⟩)))
    ∧ (recvMsg s dest).2.cachedCalls = s.cachedCalls := by
  have h2' : ¬(s.cachedResponsesAvailable = true) := by simp [h2]
  have hstate : (recvMsg s dest).2
      = { s with upstream := rest,
                 cache := putResponses s.cache s.hashedReq s.responses } := by
    simp [recvMsg, if_neg h1, if_neg h2', underlyingRecv, hup, hne]
  refine ⟨?_, ?_, ?_, ?_, ?_⟩
  · rw [hstate]; rfl
  · simp only [putBatch, List.map_cons, idxBatch_keys]
    simp
  · rw [hstate]
    exact fetch1_putBatch_num s.hashedReq s.responses s.cache
  · intro j hj
    rw [hstate]
    exact fetch1_putBatch_idx s.hashedReq s.responses s.cache j hj
  · rw [hstate]

/-- Closed witness for C7: the same recording call at end-of-stream. -/
theorem c7_chunked_entry_encoding_witness :
    (wRecState.hashedReq ≠ "" ∧ wRecState.cachedResponsesAvailable = false
      ∧ wRecState.upstream = Except.error GErr.eof :: []
      ∧ wRecState.responses ≠ [])
    ∧ ((recvMsg wRecState Dest.series).2.cache
        = putBatch wRecState.hashedReq wRecState.responses ++ wRecState.cache
      ∧ (putBatch wRecState.hashedReq wRecState.responses).map Prod.fst
          = CKey.num wRecState.hashedReq
              :: (List.range wRecState.responses.length).map
                  (CKey.idx wRecState.hashedReq)
      ∧ fetch1 (recvMsg wRecState Dest.series).2.cache (CKey.num wRecState.hashedReq)
          = some (encNum wRecState.responses.length)
      ∧ (∀ j, j < wRecState.responses.length →
          fetch1 (recvMsg wRecState Dest.series).2.cache
              (CKey.idx wRecState.hashedReq j)
            = some (marshalResp (wRecState.responses.getD j ⟨0⟩)))
      ∧ (recvMsg wRecState Dest.series).2.cachedCalls = wRecState.cachedCalls) :=
  ⟨⟨by decide, by decide, by decide, by decide⟩,
    c7_chunked_entry_encoding wRecState Dest.series [] (by decide) (by decide)
      (by decide) (by decide)⟩

/-- C8: while replaying a non-empty buffer, a destination of an unexpected
concrete type makes `RecvMsg` panic rather than deliver data; a destination of
the expected series type is delivered the head of the buffer and no panic
occurs. -/
theorem c8_replay_type_contract (s : CallState)
    (h1 : s.hashedReq ≠ "") (h2 : s.cachedResponsesAvailable = true)
    (hne : s.responses ≠ []) :
    (recvMsg s Dest.notSeries).1 = RecvOut.panicked
    ∧ (recvMsg s Dest.series).1 = RecvOut.ok s.responses.head? := by
  rcases hr : s.responses with _ | ⟨r, rs⟩
  · exact absurd hr hne
  · constructor <;> simp [recvMsg, if_neg h1, h2, hr]

/-- Closed witness for C8: a replaying call with one buffered message. -/
theorem c8_replay_type_contract_witness :
    (wRepState.hashedReq ≠ "" ∧ wRepState.cachedResponsesAvailable = true
      ∧ wRepState.responses ≠ [])
    ∧ ((recvMsg wRepState Dest.notSeries).1 = RecvOut.panicked
      ∧ (recvMsg wRepState Dest.series).1 = RecvOut.ok wRepState.responses.head?) :=
  ⟨⟨by decide, by decide, by decide⟩,
    c8_replay_type_contract wRepState (by decide) (by decide) (by decide)⟩

/-- C10: when the first message sent is not a series request, the fingerprint
stays empty and the wrapped call is a transparent proxy — `SendMsg` leaves the
state untouched, and any sequence of `RecvMsg` calls returns exactly what the
unwrapped stream would return, consuming the same stream events and changing
nothing else in the call state (no lookup, no buffering, no persistence). -/
theorem c10_transparent_proxy (s : CallState) (ds : List Dest)
    (h : s.hashedReq = "") :
    sendMsg s SendV.otherMsg = s
    ∧ (recvRunD s ds).1 = (plainRun s.upstream ds).1
    ∧ (recvRunD s ds).2 = { s with upstream := (plainRun s.upstream ds).2 } := by
  refine ⟨rfl, ?_, ?_⟩ <;> rw [recvRunD_passthrough ds s h]

/-- Closed witness for C10: a call with no series request sent, read twice. -/
theorem c10_transparent_proxy_witness :
    wPlainState.hashedReq = ""
    ∧ (sendMsg wPlainState SendV.otherMsg = wPlainState
      ∧ (recvRunD wPlainState [Dest.series, Dest.series]).1
          = (plainRun wPlainState.upstream [Dest.series, Dest.series]).1
      ∧ (recvRunD wPlainState [Dest.series, Dest.series]).2
          = { wPlainState with
                upstream := (plainRun wPlainState.upstream
                  [Dest.series, Dest.series]).2 }) :=
  ⟨by decide, c10_transparent_proxy wPlainState [Dest.series, Dest.series] (by decide)⟩

/-- C2 (counterexample to the claim as stated): with a contract-satisfying
fallback that holds nothing, one requested routed label, and a disk lookup
failing with an error other than key-not-found, `FetchMultiPostings` returns
empty hits and empty misses — the requested label is recovered by neither, so
hits ∪ misses does not recover L "regardless of the outcome of the disk
lookup". -/
theorem c2_merge_counterexample :
    fetchMultiPostings dbIoErrCore icAllMiss 0 [coreLabel] = ([], [])
    ∧ ¬ ((((fetchMultiPostings dbIoErrCore icAllMiss 0 [coreLabel]).1.map Prod.fst)
        ++ (fetchMultiPostings dbIoErrCore icAllMiss 0 [coreLabel]).2).Perm
          [coreLabel]) :=
  ⟨by decide, by decide⟩

/-- C2 (amended): provided the fallback satisfies the backend-result contract,
the requested label list has no duplicates, and the disk lookup of the routed
label does not fail with an error other than key-not-found, the hit keys and
misses returned by `FetchMultiPostings` together recover exactly the requested
labels, each exactly once. -/
theorem c2_merge_complete (db : BadgerDB) (ic : FallbackFetch) (bid : Nat)
    (lbls : List Label) (hic : FallbackContract ic) (hnd : lbls.Nodup)
    (hdb : isIoErr (db bid coreLabel) = false) :
    (((fetchMultiPostings db ic bid lbls).1.map Prod.fst)
      ++ (fetchMultiPostings db ic bid lbls).2).Perm lbls := by
  cases hsw : swapRemoveCore lbls with
  | none =>
    simpa [fetchMultiPostings, hsw, mergeHits] using hic bid lbls hnd
  | some rest =>
    have hperm : (coreLabel :: rest).Perm lbls := swapRemoveCore_perm lbls rest hsw
    have hndc : (coreLabel :: rest).Nodup := (hperm.symm).nodup hnd
    have hcr : coreLabel ∉ rest := (List.nodup_cons.mp hndc).1
    have hrestnd : rest.Nodup := (List.nodup_cons.mp hndc).2
    have hfb := hic bid rest hrestnd
    have hcore_not_hit : coreLabel ∉ (ic bid rest).1.map Prod.fst := by
      intro hh
      exact hcr (hfb.mem_iff.mp (List.mem_append_left _ hh))
    cases hget : db bid coreLabel with
    | ioErr code => rw [hget] at hdb; simp [isIoErr] at hdb
    | found v =>
      have hna : ¬((ic bid rest).1.any (fun kv => decide (kv.1 = coreLabel)) = true) := by
        rw [List.any_eq_true]
        rintro ⟨kv, hkv, hkc⟩
        exact hcore_not_hit
          (List.mem_map.mpr ⟨kv, hkv, by simpa using hkc⟩)
      have hups : mergeHits (ic bid rest).1 [(coreLabel, v)]
          = (ic bid rest).1 ++ [(coreLabel, v)] := by
        simp only [mergeHits, List.foldl_cons, List.foldl_nil, upsert]
        rw [if_neg hna]
      have hfmp : fetchMultiPostings db ic bid lbls
          = ((ic bid rest).1 ++ [(coreLabel, v)], (ic bid rest).2) := by
        simp [fetchMultiPostings, hsw, hget, hups]
      rw [hfmp]
      refine List.Perm.trans ?_ hperm
      have hmf : ((ic bid rest).1 ++ [(coreLabel, v)]).map Prod.fst
          = (ic bid rest).1.map Prod.fst ++ [coreLabel] := by simp
      rw [hmf, List.append_assoc, List.singleton_append]
      exact (List.perm_middle).trans (List.Perm.cons coreLabel hfb)
    | notFound =>
      have hfmp : fetchMultiPostings db ic bid lbls
          = ((ic bid rest).1, (ic bid rest).2 ++ [coreLabel]) := by
        simp [fetchMultiPostings, hsw, hget, mergeHits]
      rw [hfmp]
      refine List.Perm.trans ?_ hperm
      rw [← List.append_assoc]
      exact (List.perm_append_singleton _ _).trans (List.Perm.cons coreLabel hfb)

/-- Closed witness for the amended C2: a store holding the routed key, an
all-miss fallback, and a duplicate-free two-label request. -/
theorem c2_merge_complete_witness :
    (FallbackContract icAllMiss
      ∧ ([coreLabel, ⟨"a", "b"⟩] : List Label).Nodup
      ∧ isIoErr (dbWithCore 0 coreLabel) = false)
    ∧ (((fetchMultiPostings dbWithCore icAllMiss 0 [coreLabel, ⟨"a", "b"⟩]).1.map
          Prod.fst)
        ++ (fetchMultiPostings dbWithCore icAllMiss 0 [coreLabel, ⟨"a", "b"⟩]).2).Perm
          [coreLabel, ⟨"a", "b"⟩] :=
  ⟨⟨fun _ ls _ => by simp [icAllMiss], by decide, by decide⟩,
    c2_merge_complete dbWithCore icAllMiss 0 [coreLabel, ⟨"a", "b"⟩]
      (fun _ ls _ => by simp [icAllMiss])
      (by decide) (by decide)⟩

/-- C3: evaluation at the failing input — when the disk read of the routed
label fails with an error other than key-not-found, the label is dropped: it
appears in neither the hits map nor the misses list (the claim, matching the
documented failure policy, requires it to appear in the misses), though indeed
no error is surfaced. -/
theorem c3_io_error_drops_label :
    fetchMultiPostings dbIoErrCore icAllMiss 0 [coreLabel] = ([], [])
    ∧ coreLabel ∉ (fetchMultiPostings dbIoErrCore icAllMiss 0 [coreLabel]).2
    ∧ coreLabel ∉ (fetchMultiPostings dbIoErrCore icAllMiss 0 [coreLabel]).1.map
        Prod.fst :=
  ⟨by decide, by decide, by decide⟩

/-- C4 (counterexample to the claim as stated): with the maximum total size
configured to zero, the constructor still constructs an in-memory cache
backend (with both sizes forced to zero) — refuting "no cache backend is
constructed by the interceptor's constructor". -/
theorem c4_backend_constructed_counterexample :
    (NewSeriesRequestcachingInterceptor 0 5).inmemoryCache.isSome = true
    ∧ (NewSeriesRequestcachingInterceptor 0 5).inmemoryCache
        = some (newInMemoryCacheWithConfig 0 0) :=
  ⟨by decide, by decide⟩

/-- C4 (amended): with the maximum total size configured to zero the
pass-through flag is set and the interceptor hands back the underlying client
stream unmodified for every call — so no fingerprinting can occur — while a
cache backend (with zero sizes) is still constructed, though never consulted. -/
theorem c4_passthrough_mode (maxItemSize : Nat) (method target : String) :
    getInterceptor (NewSeriesRequestcachingInterceptor 0 maxItemSize) method target
      = WrapResult.plain
    ∧ (NewSeriesRequestcachingInterceptor 0 maxItemSize).passthrough = true
    ∧ (NewSeriesRequestcachingInterceptor 0 maxItemSize).inmemoryCache
        = some (newInMemoryCacheWithConfig 0 0) := by
  refine ⟨?_, ?_, ?_⟩ <;> simp [getInterceptor, NewSeriesRequestcachingInterceptor]

/-! ## Helper lemmas: the remote backend's results map -/

theorem upsertS_keys (acc : List (String × Bytes)) (k : String) (v : Bytes)
    (x : String) (hx : x ∈ (upsertS acc k v).map Prod.fst) :
    x ∈ acc.map Prod.fst ∨ x = k := by
  rw [upsertS] at hx
  split at hx
  · rw [List.map_map] at hx
    rcases List.mem_map.mp hx with ⟨kv0, hkv0, hfx⟩
    by_cases hk : kv0.1 = k
    · right
      simpa [Function.comp, hk] using hfx.symm
    · left
      refine List.mem_map.mpr ⟨kv0, hkv0, ?_⟩
      simpa [Function.comp, hk] using hfx
  · rw [List.map_append] at hx
    rcases List.mem_append.mp hx with h | h
    · exact Or.inl h
    · right
      simpa using h

theorem collectStep_length (acc : List (String × Bytes)) (kr : String × Option Bytes) :
    (collectStep acc kr).length ≤ acc.length + 1 := by
  cases hv : kr.2 with
  | none => simp [collectStep, hv]
  | some v =>
    simp only [collectStep, hv, upsertS]
    split
    · simp
    · simp

theorem foldl_collectStep_keys :
    ∀ (l : List (String × Option Bytes)) (acc : List (String × Bytes)) (x : String),
      x ∈ (l.foldl collectStep acc).map Prod.fst →
      x ∈ acc.map Prod.fst ∨ x ∈ l.map Prod.fst := by
  intro l
  induction l with
  | nil => intro acc x hx; exact Or.inl hx
  | cons kr l ih =>
    intro acc x hx
    rw [List.foldl_cons] at hx
    rcases ih (collectStep acc kr) x hx with h | h
    · cases hv : kr.2 with
      | none =>
        rw [collectStep, hv] at h
        exact Or.inl h
      | some v =>
        rw [collectStep, hv] at h
        rcases upsertS_keys acc kr.1 v x h with h1 | h1
        · exact Or.inl h1
        · right
          simp [h1]
    · right
      simp [h]

theorem foldl_collectStep_length :
    ∀ (l : List (String × Option Bytes)) (acc : List (String × Bytes)),
      (l.foldl collectStep acc).length ≤ acc.length + l.length := by
  intro l
  induction l with
  | nil => intro acc; simp
  | cons kr l ih =>
    intro acc
    rw [List.foldl_cons]
    have h1 := ih (collectStep acc kr)
    have h2 := collectStep_length acc kr
    simp only [List.length_cons]
    omega

/-- C9: `RueidisCache.Fetch` returns a hits map whose keys all belong to the
requested key list, bumps the requested-keys counter by exactly the number of
requested keys and the hit-keys counter by exactly the number of returned
entries, and the hit increment never exceeds the request increment. -/
theorem c9_fetch_contract (server : RedisServer) (erred : Bool)
    (cnt : RueidisCounters) (keys : List String) :
    ((rueidisFetch server erred cnt keys).1.all
        (fun kv => decide (kv.1 ∈ keys)) = true)
    ∧ (rueidisFetch server erred cnt keys).2.requests = cnt.requests + keys.length
    ∧ (rueidisFetch server erred cnt keys).2.hits
        = cnt.hits + (rueidisFetch server erred cnt keys).1.length
    ∧ (rueidisFetch server erred cnt keys).1.length ≤ keys.length := by
  have hkeys : ∀ x ∈ (getMulti server erred keys).map Prod.fst, x ∈ keys := by
    intro x hx
    rw [getMulti] at hx
    split at hx
    · simp at hx
    · rcases foldl_collectStep_keys _ _ _ hx with h | h
      · simp at h
      · rcases List.mem_map.mp h with ⟨kr, hkr, rfl⟩
        exact (List.of_mem_zip hkr).1
  have hlen : (getMulti server erred keys).length ≤ keys.length := by
    rw [getMulti]
    split
    · simp
    · refine le_trans (foldl_collectStep_length _ _) ?_
      rw [List.length_nil, Nat.zero_add, List.length_zip]
      exact Nat.min_le_left _ _
  refine ⟨?_, rfl, rfl, hlen⟩
  rw [List.all_eq_true]
  intro kv hkv
  exact decide_eq_true (hkeys kv.1 (List.mem_map.mpr ⟨kv, hkv, rfl⟩))

end Spec
